import Mathlib

/-!
Verification of the DynaBERT elastic-transformer / GOBO quantization code
(`DynaBERT/transformers/modeling_bert.py`) against its specification.

The Python source is shallowly embedded:
* weight values (float tensors) are modelled as rationals (`ℚ`),
* flattened weight tensors as `List ℚ`, boolean outlier masks as `List Bool`,
* Python's `round` (round-half-to-even on nonnegative reals) as `pyRound`,
  Python's `int()` truncation as `pyInt`, `math.floor` as `Int.floor`,
* `np.sort` as `List.insertionSort (· ≤ ·)` (an ascending sort),
* `np.digitize(x, bins, right=True)` as the count of bin edges `< x`,
* numpy integer indexing (including the `-1` wrap-around to the last
  element) as `pyIdx`,
* Python's `idx in arr` on a numpy *boolean* array, which compares `idx`
  against the elements `True = 1` / `False = 0`, as `pyIn`,
* the real-valued attention forward pass (for the head-reordering claim)
  over `Fin`-indexed functions into `ℝ`, with softmax via `Real.exp` and
  layer normalization via `Real.sqrt`.
-/

/-- Python's `round` on a nonnegative value: round half to even
(banker's rounding), the semantics of `round()` on floats. -/
def pyRound (q : ℚ) : ℤ :=
  if q - ⌊q⌋ < 1/2 then ⌊q⌋
  else if 1/2 < q - ⌊q⌋ then ⌊q⌋ + 1
  else if 2 ∣ ⌊q⌋ then ⌊q⌋ else ⌊q⌋ + 1

/-- Python's `int()` applied to a float value: truncation toward zero. -/
def pyInt (q : ℚ) : ℤ :=
  if q < 0 then -⌊-q⌋ else ⌊q⌋

/-- `np.average` of a list: sum divided by length (only used on
non-empty slices by the source; on `[]` the source produces NaN). -/
def listAvg (l : List ℚ) : ℚ := l.sum / l.length

/-- Source `gobo_quantize`, line `g_group = weights[~o_idx]` followed by
`np.sort`: the non-outlier values, sorted ascending. -/
def goboGGroup (w : List ℚ) (m : List Bool) : List ℚ :=
  List.insertionSort (· ≤ ·) (((w.zip m).filter fun p => !p.2).map Prod.fst)

/-- Source `step = int(len(g_group)/n_bins)` with `n_bins = pow(2, bits)`:
natural-number division truncates exactly like `int()` on this quotient. -/
def goboStep (g : List ℚ) (bits : ℕ) : ℕ := g.length / 2 ^ bits

/-- The slice `g_group[start : start + step]` with `start = i * step`,
i.e. the i-th equal-size bin used for the i-th centroid. -/
def binSlice (g : List ℚ) (bits i : ℕ) : List ℚ :=
  (g.drop (i * goboStep g bits)).take (goboStep g bits)

/-- Source centroid table: for each of the `2^bits` bins the
`np.average` of the equal-size slice `g_group[i*step : i*step+step]`,
then the sentinel `-99999.0` appended for the outlier bucket. -/
def goboCentroids (g : List ℚ) (bits : ℕ) : List ℚ :=
  ((List.range (2 ^ bits)).map fun i => listAvg (binSlice g bits i)) ++ [-99999]

/-- Source bin-boundary list: `g_group[i*step]` for each bin, with the
final boundary `g_group[-1]` appended.  Out-of-range accesses (which in
the source would raise) are given the junk default `0`; all claims are
settled under hypotheses that keep every access in range. -/
def goboBins (g : List ℚ) (bits : ℕ) : List ℚ :=
  ((List.range (2 ^ bits)).map fun i => g.getD (i * goboStep g bits) 0) ++ [g.getLastD 0]

/-- `np.digitize(x, bins, right=True)` for ascending `bins`: the index
`i` with `bins[i-1] < x <= bins[i]`, equal to the number of edges `< x`
(`0` when `x <= bins[0]`, `len(bins)` when `x > bins[-1]`). -/
def digitizeRight (bins : List ℚ) (x : ℚ) : ℕ :=
  bins.countP fun b => decide (b < x)

/-- numpy integer indexing `l[q]` including the negative wrap-around:
`l[-1]` is the last element. -/
def pyIdx (l : List ℚ) (q : ℤ) : ℚ :=
  if q < 0 then l.getD (l.length - (-q).toNat) 0 else l.getD q.toNat 0

/-- Python's `idx in o_idx` where `o_idx` is a numpy **boolean** array:
numpy containment compares the integer `idx` with the array elements,
`True = 1` and `False = 0`.  Hence it can only hold for `idx = 0`
(some position is a non-outlier) or `idx = 1` (some position is an
outlier); every `idx ≥ 2` is reported as not contained. -/
def pyIn (idx : ℕ) (m : List Bool) : Bool :=
  m.any fun b => (cond b 1 0 : ℕ) == idx

/-- Stage 1+2+3 of `gobo_quantize`: `quantized = np.digitize(weights,
bins, right=True) - 1` followed by `new_weights = centroids[quantized]`
(numpy indexing, so index `-1` selects the sentinel entry). -/
def goboAssigned (w : List ℚ) (m : List Bool) (bits : ℕ) : List ℚ :=
  w.map fun x =>
    pyIdx (goboCentroids (goboGGroup w m) bits)
      ((digitizeRight (goboBins (goboGGroup w m) bits) x : ℤ) - 1)

/-- Stage 4 of `gobo_quantize`: `new_weights[o_idx] = weights[o_idx]`,
restoring the original value at every masked position. -/
def goboRestored (w : List ℚ) (m : List Bool) (bits : ℕ) : List ℚ :=
  ((goboAssigned w m bits).zip (w.zip m)).map fun p => if p.2.2 then p.2.1 else p.1

/-- Source `gobo_quantize(weights, o_idx, bits)`: the final patch loop
`for idx, d in enumerate(new_weights): if d < -100.0 and idx not in
o_idx: new_weights[idx] = centroids[0]` applied on top of the restored
vector.  `idx not in o_idx` uses numpy boolean-array containment
(`pyIn`). -/
def gobo_quantize (w : List ℚ) (m : List Bool) (bits : ℕ) : List ℚ :=
  (goboRestored w m bits).mapIdx fun idx d =>
    if d < -100 ∧ pyIn idx m = false
    then (goboCentroids (goboGGroup w m) bits).getD 0 0
    else d

/-- Source `gather_layer_weights`: concatenation of the flattened
parameter tensors of a layer, in enumeration order. -/
def layerConcat (layer : List (List ℚ)) : List ℚ := layer.flatten

/-- Source `detect_outliers`' `outliers` return value: the values at the
masked positions, in order (the `o_group` of `_quantize`). -/
def oGroupOf (weights : List ℚ) (m : List Bool) : List ℚ :=
  ((weights.zip m).filter fun p => p.2).map Prod.fst

/-- The write-back loop of `_quantize`: `new_weights[:length]` reshaped
into each parameter tensor and `new_weights = new_weights[length:]`. -/
def splitChunks : List ℕ → List ℚ → List (List ℚ)
  | [], _ => []
  | n :: ns, v => v.take n :: splitChunks ns (v.drop n)

/-- Source `o_count` of `_quantize`: per written-back tensor,
`len(np.nonzero(np.in1d(param.data.flatten(), o_group))[0])`, i.e. the
number of entries whose value occurs in `o_group`, summed. -/
def recomputedOCount (tensors : List (List ℚ)) (og : List ℚ) : ℕ :=
  (tensors.map fun t => t.countP fun v => og.contains v).sum

/-- Source `_quantize(layer, gobo_quantize, detect_o=True, bits)` given
the outlier mask produced by `detect_outliers`: gather, quantize, write
back per tensor, recount the outliers and assert that `o_count` equals
`len(o_group)` — the failed assertion aborts the call, modelled as
`none`; a normal return is `some` of the written-back tensors. -/
def quantizeLayer (layer : List (List ℚ)) (m : List Bool) (bits : ℕ) :
    Option (List (List ℚ)) :=
  if recomputedOCount
       (splitChunks (layer.map List.length) (gobo_quantize (layerConcat layer) m bits))
       (oGroupOf (layerConcat layer) m) =
     (oGroupOf (layerConcat layer) m).length
  then some (splitChunks (layer.map List.length) (gobo_quantize (layerConcat layer) m bits))
  else none

/-- Source `detect_outliers` Gaussian fit, mean: with one mixture
component the EM fit of `GaussianMixture(n_components=1)` is the sample
mean. -/
def gmMean (w : List ℚ) : ℚ := w.sum / w.length

/-- Source `detect_outliers` Gaussian fit, variance: the biased sample
variance plus sklearn's default covariance regularization
`reg_covar = 1e-6`. -/
def gmVar (w : List ℚ) : ℚ :=
  (w.map fun x => (x - gmMean w) ^ 2).sum / w.length + 1 / 1000000

/-- Source `detect_outliers` outlier criterion for one value:
`score_samples` is the Gaussian log-density
`-log(2·π·σ²)/2 - (x-μ)²/(2σ²)`, and a value is flagged when the score
is `≤ -4.0`. -/
def isOutlierVal (w : List ℚ) (x : ℚ) : Prop :=
  -Real.log (2 * Real.pi * (gmVar w : ℝ)) / 2 -
      ((x : ℝ) - (gmMean w : ℝ)) ^ 2 / (2 * (gmVar w : ℝ)) ≤ -4

/-- The mask returned by `detect_outliers(w)` (the OutlierGate): a
boolean vector of the same length marking exactly the positions whose
Gaussian log-likelihood score is `≤ -4.0`. -/
def isOutlierMask (w : List ℚ) (m : List Bool) : Prop :=
  m.length = w.length ∧
    ∀ i < w.length, (m.getD i false = true ↔ isOutlierVal w (w.getD i 0))

/-- Source `round_to_nearest(input_size, width_mult, num_heads,
min_value=1)`: `max(min_value, int(round(num_heads*width_mult)/num_heads
* input_size))`. -/
def round_to_nearest (input_size : ℕ) (width_mult : ℚ) (num_heads : ℕ)
    (min_value : ℕ := 1) : ℕ :=
  max min_value (pyInt ((pyRound (num_heads * width_mult) : ℚ) / num_heads * input_size)).toNat

/-- Source `BertSelfAttention.forward` line
`self.num_attention_heads = round(self.orig_num_attention_heads *
self.query.width_mult)`: the active head count of the attention block. -/
def attnActiveHeads (num_heads : ℕ) (width_mult : ℚ) : ℤ :=
  pyRound (num_heads * width_mult)

/-- The mutable state of a `DynaLinear` module: full-size parameters,
configuration, and the `in_features` / `out_features` attributes that
`forward` overwrites on every call. -/
structure DynaLinearState where
  weight : ℕ → ℕ → ℚ
  bias : ℕ → ℚ
  in_features_max : ℕ
  out_features_max : ℕ
  num_heads : ℕ
  width_mult : ℚ
  dyna_dim : Bool × Bool
  in_features : ℕ
  out_features : ℕ

/-- Source `DynaLinear.forward`: recompute the elastic `in_features` /
`out_features` from the current width multiplier, then apply
`nn.functional.linear` using only the leading
`out_features × in_features` submatrix of the stored weight and the
leading `out_features` entries of the bias.  Returns the output vector
together with the post-call module state. -/
def dynaForward (st : DynaLinearState) (input : ℕ → ℚ) : (ℕ → ℚ) × DynaLinearState :=
  let inF := if st.dyna_dim.1
    then round_to_nearest st.in_features_max st.width_mult st.num_heads
    else st.in_features
  let outF := if st.dyna_dim.2
    then round_to_nearest st.out_features_max st.width_mult st.num_heads
    else st.out_features
  (fun j => if j < outF
            then (∑ i ∈ Finset.range inF, st.weight j i * input i) + st.bias j
            else 0,
   { st with in_features := inF, out_features := outF })

/-- Source `BertEncoder.forward` depth selection:
`depth = round(self.depth_mult * len(self.layer))` followed by the loop
`for i in range(depth): kept_layers_index.append(math.floor(i/self.depth_mult))`,
accumulating the kept indices in order. -/
def keptLayersIndex (d : ℚ) (L : ℕ) : List ℤ :=
  (List.range (pyRound (d * L)).toNat).foldl
    (fun acc (i : ℕ) => acc ++ [⌊(i : ℚ) / d⌋]) []

/-- The spec's active index sequence: `[floor(i/d) for i in
range(round(d*L))]`. -/
def activeIndicesSpec (d : ℚ) (L : ℕ) : List ℤ :=
  (List.range (pyRound (d * L)).toNat).map fun (i : ℕ) => ⌊(i : ℚ) / d⌋

/-- Source `BertEncoder.forward` layer loop: thread the hidden state
through the kept layers in order (`hidden_states = layer_outputs[0]`).
A layer is modelled as a state transformer `α → α`. -/
def encoderForward {α : Type*} (layers : List (α → α)) (d : ℚ) (h0 : α) : α :=
  (keptLayersIndex d layers.length).foldl (fun s i => (layers.getD i.toNat id) s) h0

/-- Modelled from the spec (§4.6 step 2 / C6): the i-th equal-population
bin where "the final bin absorbs the remainder", i.e. the last bin
extends to the end of the sorted group. -/
def specBinSlice (g : List ℚ) (bits i : ℕ) : List ℚ :=
  if i = 2 ^ bits - 1 then g.drop (i * goboStep g bits)
  else (g.drop (i * goboStep g bits)).take (goboStep g bits)

/-- Modelled from the spec (C6): the claimed centroid table — the
arithmetic mean of each bin, final bin absorbing the remainder, plus
the outlier sentinel. -/
def specCentroidTable (g : List ℚ) (bits : ℕ) : List ℚ :=
  ((List.range (2 ^ bits)).map fun i => listAvg (specBinSlice g bits i)) ++ [-99999]

section DepthLemmas

theorem pyRound_le (q : ℚ) : (pyRound q : ℚ) ≤ q + 1/2 := by
  unfold pyRound
  have h1 : (⌊q⌋ : ℚ) ≤ q := Int.floor_le q
  have h2 : q < ⌊q⌋ + 1 := Int.lt_floor_add_one q
  split_ifs with hlt hgt hev <;> push_cast <;> linarith

theorem pyRound_nonneg {q : ℚ} (h : 0 ≤ q) : 0 ≤ pyRound q := by
  unfold pyRound
  have h1 : (0 : ℤ) ≤ ⌊q⌋ := Int.floor_nonneg.2 h
  split_ifs <;> omega

theorem pyRound_intCast (z : ℤ) : pyRound (z : ℚ) = z := by
  unfold pyRound
  rw [Int.floor_intCast]
  norm_num

theorem foldl_append_eq_map (f : ℕ → ℤ) (l : List ℕ) :
    ∀ acc : List ℤ, l.foldl (fun a i => a ++ [f i]) acc = acc ++ l.map f := by
  induction l with
  | nil => intro acc; simp
  | cons x xs ih => intro acc; simp [ih]

theorem keptLayersIndex_eq_map (d : ℚ) (L : ℕ) :
    keptLayersIndex d L = activeIndicesSpec d L := by
  unfold keptLayersIndex activeIndicesSpec
  exact foldl_append_eq_map _ _ []

theorem floor_div_strictMono {d : ℚ} (hd0 : 0 < d) (hd1 : d ≤ 1)
    {i j : ℕ} (hij : i < j) : ⌊(i : ℚ) / d⌋ < ⌊(j : ℚ) / d⌋ := by
  have hinv : 1 ≤ 1 / d := (le_div_iff₀ hd0).2 (by linarith)
  have hstep : (i : ℚ) / d + 1 ≤ (j : ℚ) / d := by
    have hij' : (i : ℚ) + 1 ≤ j := by exact_mod_cast hij
    have h1 : ((i : ℚ) + 1) / d ≤ (j : ℚ) / d := by gcongr
    have h2 : (i : ℚ) / d + 1 / d = ((i : ℚ) + 1) / d := by ring
    linarith
  calc ⌊(i : ℚ) / d⌋ < ⌊(i : ℚ) / d⌋ + 1 := lt_add_one _
    _ = ⌊(i : ℚ) / d + 1⌋ := by rw [Int.floor_add_one]
    _ ≤ ⌊(j : ℚ) / d⌋ := Int.floor_le_floor hstep

/-- C3: for a depth multiplier `d ∈ (0,1]`, the encoder forward pass is
exactly the left fold of the hidden state through the layers at indices
`floor(i/d)` for `i in range(round(d·L))`, in that order; and for
`L = 12`, `d = 0.5` those indices are exactly `[0,2,4,6,8,10]`. -/
theorem encoder_executes_spec_indices {α : Type*} (layers : List (α → α)) (d : ℚ) (h0 : α)
    (hd0 : 0 < d) (hd1 : d ≤ 1) :
    encoderForward layers d h0 =
      (activeIndicesSpec d layers.length).foldl
        (fun s i => (layers.getD i.toNat id) s) h0 ∧
    activeIndicesSpec (1/2) 12 = [0, 2, 4, 6, 8, 10] := by
  refine ⟨by rw [encoderForward, keptLayersIndex_eq_map], ?_⟩
  unfold activeIndicesSpec pyRound
  norm_num [List.range_succ, show (6 : ℤ).toNat = 6 from rfl]

theorem encoder_executes_spec_indices_witness :
    activeIndicesSpec (1/2) 12 = [0, 2, 4, 6, 8, 10] :=
  (encoder_executes_spec_indices ([id] : List (ℕ → ℕ)) (1/2) 0 (by norm_num) (by norm_num)).2

/-- C4: for every depth multiplier `d ∈ (0,1]` and layer count `L ≥ 1`,
the selected index sequence is strictly increasing, starts at `0` when
non-empty, and every entry lies in `[0, L)`. -/
theorem depth_indices_increasing_bounded (d : ℚ) (L : ℕ)
    (hd0 : 0 < d) (hd1 : d ≤ 1) (hL : 1 ≤ L) :
    List.Pairwise (· < ·) (keptLayersIndex d L) ∧
    (keptLayersIndex d L ≠ [] → (keptLayersIndex d L).headD 0 = 0) ∧
    ∀ x ∈ keptLayersIndex d L, 0 ≤ x ∧ x < L := by
  rw [keptLayersIndex_eq_map]
  unfold activeIndicesSpec
  refine ⟨?_, ?_, ?_⟩
  · exact List.Pairwise.map _ (fun a b hab => floor_div_strictMono hd0 hd1 hab)
      (List.pairwise_lt_range _)
  · intro hne
    rcases Nat.eq_zero_or_pos (pyRound (d * L)).toNat with h0 | h0
    · simp [h0] at hne
    · obtain ⟨n, hn⟩ := Nat.exists_eq_succ_of_ne_zero h0.ne'
      simp [hn, List.range_succ_eq_map]
  · intro x hx
    rcases List.mem_map.1 hx with ⟨i, hi, rfl⟩
    have hiR : i < (pyRound (d * L)).toNat := List.mem_range.1 hi
    constructor
    · exact Int.floor_nonneg.2 (div_nonneg (by positivity) hd0.le)
    · have hub : ((pyRound (d * L)).toNat : ℚ) ≤ d * L + 1/2 := by
        have h1 := pyRound_le (d * L)
        have h2 : (0 : ℤ) ≤ pyRound (d * L) :=
          pyRound_nonneg (by positivity)
        have h3 : ((pyRound (d * L)).toNat : ℤ) = pyRound (d * L) :=
          Int.toNat_of_nonneg h2
        rw [← h3] at h1
        exact_mod_cast h1
      have hiq : (i : ℚ) < d * L := by
        have : (i : ℚ) + 1 ≤ (pyRound (d * L)).toNat := by exact_mod_cast hiR
        linarith
      have hfrac : (i : ℚ) / d < L := by
        rw [div_lt_iff₀ hd0]
        calc (i : ℚ) < d * L := hiq
          _ = L * d := by ring
      exact Int.floor_lt.2 (by exact_mod_cast hfrac)

theorem depth_indices_increasing_bounded_witness :
    List.Pairwise (· < ·) (keptLayersIndex (1/2) 12) ∧
    (keptLayersIndex (1/2) 12 ≠ [] → (keptLayersIndex (1/2) 12).headD 0 = 0) ∧
    ∀ x ∈ keptLayersIndex (1/2) 12, 0 ≤ x ∧ x < 12 :=
  depth_indices_increasing_bounded (1/2) 12 (by norm_num) (by norm_num) (by norm_num)

end DepthLemmas

section WidthLemmas

theorem pyInt_intCast (z : ℤ) : pyInt (z : ℚ) = z := by
  unfold pyInt
  split_ifs with h
  · have hz : z < 0 := by exact_mod_cast h
    have : ((-z : ℤ) : ℚ) = -(z : ℚ) := by push_cast; ring
    rw [← this, Int.floor_intCast]
    omega
  · exact Int.floor_intCast z

theorem round_to_nearest_eq_heads_mul (h a : ℕ) (w : ℚ)
    (hh : 0 < h) (ha : 0 < a) (hr : 1 ≤ pyRound (h * w)) :
    round_to_nearest (h * a) w h = (pyRound (h * w)).toNat * a := by
  obtain ⟨n, hn⟩ := Int.eq_ofNat_of_zero_le (by linarith : (0 : ℤ) ≤ pyRound (h * w))
  have hn1 : 1 ≤ n := by exact_mod_cast hn ▸ hr
  have hhQ : (h : ℚ) ≠ 0 := by positivity
  have hval : (pyRound ((h : ℚ) * w) : ℚ) / h * ((h * a : ℕ) : ℚ) = ((n * a : ℕ) : ℚ) := by
    rw [hn]
    push_cast
    field_simp
    ring
  have hpy : pyInt ((n * a : ℕ) : ℚ) = ((n * a : ℕ) : ℤ) := by
    have := pyInt_intCast ((n * a : ℕ) : ℤ)
    rwa [Int.cast_natCast] at this
  unfold round_to_nearest
  rw [hval, hpy, Int.toNat_natCast, hn, Int.toNat_natCast]
  exact max_eq_right (Nat.one_le_iff_ne_zero.2 (Nat.mul_ne_zero (by omega) ha.ne'))

/-- C5 counterexample: at width multiplier `w = 1/48 ∈ (0,1]` with 12
heads and head size 64, the attention forward pass sets the active head
count to `round(12/48) = 0` — not at least 1 — and the elastic output
slice size of the query/key/value projections is clamped to `1`, which
differs from `active_heads * head_size = 0`. -/
theorem width_zero_heads_counterexample :
    attnActiveHeads 12 (1/48) = 0 ∧
    ¬ 1 ≤ attnActiveHeads 12 (1/48) ∧
    round_to_nearest (12 * 64) (1/48) 12 = 1 ∧
    (attnActiveHeads 12 (1/48)).toNat * 64 = 0 := by
  have h0 : attnActiveHeads 12 (1/48) = 0 := by
    unfold attnActiveHeads pyRound
    norm_num
  refine ⟨h0, by rw [h0]; norm_num, ?_, by rw [h0]; norm_num⟩
  unfold round_to_nearest pyRound pyInt
  norm_num

/-- C5 (amended): for a width multiplier `w ∈ (0,1]` whose rounded head
count `round(h·w)` is at least 1 (the claim fails for smaller `w`, see
the counterexample), a forward call of the attention block sets the
active head count to `round(h·w)`, and the elastic output slice size of
each of the query/key/value projections (`DynaLinear` with
`dyna_dim=[False, True]` and `out_features_max = h·a`) equals the
active head count times the per-head size, so the reshape to
`(batch, active_heads, seq, head_dim)` is consistent. -/
theorem width_consistency_amended (h a : ℕ) (w : ℚ) (st : DynaLinearState)
    (input : ℕ → ℚ)
    (hmax : st.out_features_max = h * a) (hnh : st.num_heads = h)
    (hwm : st.width_mult = w) (hdd : st.dyna_dim = (false, true))
    (hh : 0 < h) (ha : 0 < a) (hw0 : 0 < w) (hw1 : w ≤ 1)
    (hr : 1 ≤ pyRound (h * w)) :
    attnActiveHeads h w = pyRound (h * w) ∧
    (dynaForward st input).2.out_features = (attnActiveHeads h w).toNat * a := by
  refine ⟨rfl, ?_⟩
  simp only [dynaForward, hdd, hmax, hnh, hwm]
  simpa using round_to_nearest_eq_heads_mul h a w hh ha hr

theorem width_consistency_amended_witness :
    attnActiveHeads 12 (1/2) = pyRound (12 * (1/2)) ∧
    (dynaForward
        { weight := fun _ _ => 0, bias := fun _ => 0,
          in_features_max := 768, out_features_max := 12 * 64,
          num_heads := 12, width_mult := 1/2, dyna_dim := (false, true),
          in_features := 768, out_features := 768 } (fun _ => 0)).2.out_features =
      (attnActiveHeads 12 (1/2)).toNat * 64 :=
  width_consistency_amended 12 64 (1/2) _ _ rfl rfl rfl rfl
    (by norm_num) (by norm_num) (by norm_num) (by norm_num)
    (by unfold pyRound; norm_num)

/-- C8: a forward call of `DynaLinear` only recomputes the elastic
`in_features`/`out_features` attributes and reads a leading submatrix;
the stored full-size weight matrix and bias vector of the module state
are unchanged by the call. -/
theorem dyna_forward_preserves_params (st : DynaLinearState) (input : ℕ → ℚ) :
    (dynaForward st input).2.weight = st.weight ∧
    (dynaForward st input).2.bias = st.bias ∧
    (dynaForward st input).2.in_features_max = st.in_features_max ∧
    (dynaForward st input).2.out_features_max = st.out_features_max ∧
    (dynaForward st input).2.width_mult = st.width_mult ∧
    (∀ st' : DynaLinearState,
      st'.in_features_max = st.in_features_max →
      st'.out_features_max = st.out_features_max →
      st'.num_heads = st.num_heads →
      st'.width_mult = st.width_mult →
      st'.dyna_dim = st.dyna_dim →
      st'.in_features = st.in_features →
      st'.out_features = st.out_features →
      (∀ j i, j < (dynaForward st input).2.out_features →
        i < (dynaForward st input).2.in_features → st'.weight j i = st.weight j i) →
      (∀ j, j < (dynaForward st input).2.out_features → st'.bias j = st.bias j) →
      (dynaForward st' input).1 = (dynaForward st input).1) := by
  refine ⟨rfl, rfl, rfl, rfl, rfl, ?_⟩
  intro st' h1 h2 h3 h4 h5 h6 h7 hW hB
  funext j
  simp only [dynaForward, h1, h2, h3, h4, h5, h6, h7]
  by_cases hj : j < (if st.dyna_dim.2
      then round_to_nearest st.out_features_max st.width_mult st.num_heads
      else st.out_features)
  · rw [if_pos hj, if_pos hj]
    have houtF : (dynaForward st input).2.out_features =
        (if st.dyna_dim.2
         then round_to_nearest st.out_features_max st.width_mult st.num_heads
         else st.out_features) := rfl
    have hinF : (dynaForward st input).2.in_features =
        (if st.dyna_dim.1
         then round_to_nearest st.in_features_max st.width_mult st.num_heads
         else st.in_features) := rfl
    rw [hB j (by rw [houtF]; exact hj)]
    congr 1
    apply Finset.sum_congr rfl
    intro i hi
    rw [hW j i (by rw [houtF]; exact hj) (by rw [hinF]; exact Finset.mem_range.1 hi)]
  · rw [if_neg hj, if_neg hj]

theorem dyna_forward_preserves_params_witness :
    (dynaForward
        { weight := fun _ _ => 5, bias := fun _ => 7,
          in_features_max := 2, out_features_max := 2,
          num_heads := 1, width_mult := 1, dyna_dim := (false, false),
          in_features := 2, out_features := 2 } (fun _ => 1)).2.weight =
      (fun _ _ => (5 : ℚ)) ∧
    (dynaForward
        { weight := fun _ _ => 5, bias := fun _ => 7,
          in_features_max := 2, out_features_max := 2,
          num_heads := 1, width_mult := 1, dyna_dim := (false, false),
          in_features := 2, out_features := 2 } (fun _ => 1)).1 =
      (dynaForward
        { weight := fun _ _ => 5, bias := fun _ => 7,
          in_features_max := 2, out_features_max := 2,
          num_heads := 1, width_mult := 1, dyna_dim := (false, false),
          in_features := 2, out_features := 2 } (fun _ => 1)).1 := by
  have h := dyna_forward_preserves_params
    { weight := fun _ _ => 5, bias := fun _ => 7,
      in_features_max := 2, out_features_max := 2,
      num_heads := 1, width_mult := 1, dyna_dim := (false, false),
      in_features := 2, out_features := 2 } (fun _ => 1)
  refine ⟨h.1, ?_⟩
  exact h.2.2.2.2.2 _ rfl rfl rfl rfl rfl rfl rfl
    (fun _ _ _ _ => rfl) (fun _ _ => rfl)

end WidthLemmas

section BinLemmas

/-- C10: `gobo_quantize` has the unstated precondition `|G| ≥ 2^bits`:
under it the per-bin step `int(|G|/2^bits)` is at least 1, the group is
non-empty (so `g_group[-1]` is in range), and every one of the `2^bits`
bin slices `g_group[i*step : i*step+step]` has exactly `step` elements
(in particular is non-empty, so every centroid is a well-defined mean);
the function performs no guard, and when `|G| < 2^bits` the step is `0`
and every bin slice is empty (so every bin average is over an empty
slice). -/
theorem gobo_bin_precondition (w : List ℚ) (m : List Bool) (bits : ℕ) :
    (2 ^ bits ≤ (goboGGroup w m).length →
      1 ≤ goboStep (goboGGroup w m) bits ∧
      goboGGroup w m ≠ [] ∧
      ∀ i < 2 ^ bits,
        (binSlice (goboGGroup w m) bits i).length = goboStep (goboGGroup w m) bits) ∧
    ((goboGGroup w m).length < 2 ^ bits →
      goboStep (goboGGroup w m) bits = 0 ∧
      ∀ i < 2 ^ bits, binSlice (goboGGroup w m) bits i = []) := by
  constructor
  · intro hle
    have hpow : 0 < 2 ^ bits := Nat.pos_pow_of_pos bits (by norm_num)
    have hstep : 1 ≤ goboStep (goboGGroup w m) bits :=
      (Nat.one_le_div_iff hpow).2 hle
    refine ⟨hstep, ?_, ?_⟩
    · have : 0 < (goboGGroup w m).length := lt_of_lt_of_le hpow hle
      exact List.ne_nil_of_length_pos this
    · intro i hi
      have htot : 2 ^ bits * goboStep (goboGGroup w m) bits ≤ (goboGGroup w m).length := by
        unfold goboStep
        rw [Nat.mul_comm]
        exact Nat.div_mul_le_self _ _
      have hmul : (i + 1) * goboStep (goboGGroup w m) bits ≤
          2 ^ bits * goboStep (goboGGroup w m) bits :=
        Nat.mul_le_mul_right _ hi
      have hexp : i * goboStep (goboGGroup w m) bits + goboStep (goboGGroup w m) bits ≤
          (goboGGroup w m).length := by
        have h1 : (i + 1) * goboStep (goboGGroup w m) bits =
            i * goboStep (goboGGroup w m) bits + goboStep (goboGGroup w m) bits := by ring
        omega
      simp only [binSlice, List.length_take, List.length_drop]
      omega
  · intro hlt
    have hz : goboStep (goboGGroup w m) bits = 0 := Nat.div_eq_of_lt hlt
    exact ⟨hz, fun i _ => by simp [binSlice, hz]⟩

theorem gobo_bin_precondition_witness :
    1 ≤ goboStep (goboGGroup [5, 6, 7, 8] (List.replicate 4 false)) 1 ∧
    goboGGroup [5, 6, 7, 8] (List.replicate 4 false) ≠ [] ∧
    ∀ i < 2 ^ 1,
      (binSlice (goboGGroup [5, 6, 7, 8] (List.replicate 4 false)) 1 i).length =
        goboStep (goboGGroup [5, 6, 7, 8] (List.replicate 4 false)) 1 :=
  (gobo_bin_precondition [5, 6, 7, 8] (List.replicate 4 false) 1).1
    (by norm_num [goboGGroup, List.length_insertionSort])

/-- C6 counterexample: for the non-outlier group `G = [0,1,2,3,4]` and
`bits = 1` the step is `2`, so under the claim's reading the final bin
absorbs the remainder, i.e. it is `[2,3,4]` with mean `3`; but the code
averages only the equal-size slice `[2,3]`, producing the centroid
`5/2 ≠ 3`. -/
theorem centroid_table_counterexample :
    (goboCentroids (goboGGroup [0, 1, 2, 3, 4] (List.replicate 5 false)) 1).getD 1 0 = 5/2 ∧
    listAvg (specBinSlice (goboGGroup [0, 1, 2, 3, 4] (List.replicate 5 false)) 1 1) = 3 ∧
    (5/2 : ℚ) ≠ 3 := by
  have hg : goboGGroup [0, 1, 2, 3, 4] (List.replicate 5 false) = [0, 1, 2, 3, 4] := by
    norm_num [goboGGroup, List.insertionSort, List.orderedInsert]
  rw [hg]
  refine ⟨?_, ?_, by norm_num⟩
  · norm_num [goboCentroids, goboStep, binSlice, listAvg, List.range_succ]
  · norm_num [specBinSlice, goboStep, listAvg]

/-- C6 (amended): the centroid table has exactly `2^bits + 1` entries;
entry `i < 2^bits` is the arithmetic mean of the *equal-size* slice
`g_group[i*step : i*step+step]` — when `2^bits` does not divide `|G|`
the trailing remainder of the sorted group contributes to no centroid,
so in general the final centroid is *not* the mean of the
remainder-absorbing final bin (see the counterexample); the last entry
is the outlier sentinel `-99999.0`; and when `2^bits` divides `|G|` the
table coincides with the spec's remainder-absorbing table. -/
theorem centroid_table_amended (w : List ℚ) (m : List Bool) (bits : ℕ) :
    (goboCentroids (goboGGroup w m) bits).length = 2 ^ bits + 1 ∧
    (∀ i < 2 ^ bits,
      (goboCentroids (goboGGroup w m) bits).getD i 0 =
        listAvg (binSlice (goboGGroup w m) bits i)) ∧
    (goboCentroids (goboGGroup w m) bits).getLastD 0 = -99999 ∧
    (2 ^ bits ∣ (goboGGroup w m).length →
      goboCentroids (goboGGroup w m) bits = specCentroidTable (goboGGroup w m) bits) := by
  refine ⟨by simp [goboCentroids], ?_, ?_, ?_⟩
  · intro i hi
    rw [goboCentroids, List.getD_append _ _ _ _ (by simpa using hi)]
    simp [List.getD, hi]
  · simp [goboCentroids]
  · intro hdvd
    unfold goboCentroids specCentroidTable
    congr 1
    apply List.map_congr_left
    intro i hi
    have hi' : i < 2 ^ bits := List.mem_range.1 hi
    unfold specBinSlice
    by_cases hlast : i = 2 ^ bits - 1
    · rw [if_pos hlast, binSlice]
      have hlen : (goboGGroup w m).length = 2 ^ bits * goboStep (goboGGroup w m) bits := by
        unfold goboStep
        rw [Nat.mul_comm]
        exact (Nat.div_mul_cancel hdvd).symm
      have hdrop : ((goboGGroup w m).drop (i * goboStep (goboGGroup w m) bits)).length =
          goboStep (goboGGroup w m) bits := by
        rw [List.length_drop, hlen, hlast]
        have hpow : 1 ≤ 2 ^ bits := Nat.one_le_two_pow
        have : (2 ^ bits - 1) * goboStep (goboGGroup w m) bits + goboStep (goboGGroup w m) bits
            = 2 ^ bits * goboStep (goboGGroup w m) bits := by
          rw [← Nat.succ_mul, Nat.succ_eq_add_one, Nat.sub_add_cancel hpow]
        omega
      rw [List.take_of_length_le hdrop.le]
    · rw [if_neg hlast, binSlice]

theorem centroid_table_amended_witness :
    goboCentroids (goboGGroup [0, 1, 2, 3] (List.replicate 4 false)) 1 =
      specCentroidTable (goboGGroup [0, 1, 2, 3] (List.replicate 4 false)) 1 :=
  (centroid_table_amended [0, 1, 2, 3] (List.replicate 4 false) 1).2.2.2
    (by norm_num [goboGGroup, List.length_insertionSort])

end BinLemmas

section PatchLemmas

theorem goboGGroup_sorted (w : List ℚ) (m : List Bool) :
    (goboGGroup w m).Sorted (· ≤ ·) :=
  List.sorted_insertionSort _ _

theorem getLastD_eq_getD {l : List ℚ} (h : l ≠ []) :
    l.getLastD 0 = l.getD (l.length - 1) 0 := by
  have hlen : l.length - 1 < l.length := by have := List.length_pos.2 h; omega
  rw [List.getLastD_eq_getLast?, List.getLast?_eq_getLast_of_ne_nil h,
    List.getD_eq_getElem _ _ hlen]
  simp [List.getLast_eq_getElem]

theorem sorted_getD_mono {g : List ℚ} (hs : g.Sorted (· ≤ ·)) {i j : ℕ}
    (hij : i ≤ j) (hj : j < g.length) : g.getD i 0 ≤ g.getD j 0 := by
  have hi : i < g.length := lt_of_le_of_lt hij hj
  rw [List.getD_eq_getElem _ _ hi, List.getD_eq_getElem _ _ hj]
  have := hs.rel_get_of_le (show (⟨i, hi⟩ : Fin g.length) ≤ ⟨j, hj⟩ from hij)
  simpa using this

theorem mul_step_lt {g : List ℚ} (hg : g ≠ []) (bits : ℕ) {i : ℕ}
    (hi : i < 2 ^ bits) : i * goboStep g bits < g.length := by
  rcases Nat.eq_zero_or_pos (goboStep g bits) with h0 | h1
  · simpa [h0] using List.length_pos.2 hg
  · have htot : 2 ^ bits * goboStep g bits ≤ g.length := by
      unfold goboStep
      rw [Nat.mul_comm]
      exact Nat.div_mul_le_self _ _
    have hmul : (i + 1) * goboStep g bits ≤ 2 ^ bits * goboStep g bits :=
      Nat.mul_le_mul_right _ hi
    have hexp : (i + 1) * goboStep g bits = i * goboStep g bits + goboStep g bits := by
      ring
    omega

theorem bins_mem_bounds {g : List ℚ} (hs : g.Sorted (· ≤ ·)) (hg : g ≠ [])
    (bits : ℕ) {b : ℚ} (hb : b ∈ goboBins g bits) :
    g.getD 0 0 ≤ b ∧ b ≤ g.getLastD 0 := by
  have hpos : 0 < g.length := List.length_pos.2 hg
  have hlast : g.getLastD 0 = g.getD (g.length - 1) 0 := getLastD_eq_getD hg
  rcases List.mem_append.1 hb with hb | hb
  · rcases List.mem_map.1 hb with ⟨i, hi, rfl⟩
    have hilt := mul_step_lt hg bits (List.mem_range.1 hi)
    refine ⟨sorted_getD_mono hs (Nat.zero_le _) hilt, ?_⟩
    rw [hlast]
    exact sorted_getD_mono hs (by omega) (by omega)
  · have hbeq : b = g.getLastD 0 := by simpa using hb
    subst hbeq
    rw [hlast]
    exact ⟨sorted_getD_mono hs (Nat.zero_le _) (by omega), le_refl _⟩

theorem digitize_of_le_min {g : List ℚ} (hs : g.Sorted (· ≤ ·)) (hg : g ≠ [])
    (bits : ℕ) {x : ℚ} (hx : x ≤ g.getD 0 0) :
    digitizeRight (goboBins g bits) x = 0 := by
  unfold digitizeRight
  rw [List.countP_eq_zero]
  intro b hb
  simp only [decide_eq_true_eq]
  exact not_lt.2 (le_trans hx (bins_mem_bounds hs hg bits hb).1)

theorem digitize_of_gt_max {g : List ℚ} (hs : g.Sorted (· ≤ ·)) (hg : g ≠ [])
    (bits : ℕ) {x : ℚ} (hx : g.getLastD 0 < x) :
    digitizeRight (goboBins g bits) x = 2 ^ bits + 1 := by
  have hlen : (goboBins g bits).length = 2 ^ bits + 1 := by simp [goboBins]
  unfold digitizeRight
  rw [← hlen, List.countP_eq_length]
  intro b hb
  simp only [decide_eq_true_eq]
  exact lt_of_le_of_lt (bins_mem_bounds hs hg bits hb).2 hx

theorem centroids_length (g : List ℚ) (bits : ℕ) :
    (goboCentroids g bits).length = 2 ^ bits + 1 := by
  simp [goboCentroids]

theorem centroids_getD_pow (g : List ℚ) (bits : ℕ) :
    (goboCentroids g bits).getD (2 ^ bits) 0 = -99999 := by
  unfold goboCentroids
  rw [List.getD_append_right _ _ _ _ (by simp)]
  simp

theorem pyIdx_neg_one (g : List ℚ) (bits : ℕ) :
    pyIdx (goboCentroids g bits) (-1) = -99999 := by
  unfold pyIdx
  rw [if_pos (by norm_num), centroids_length]
  simpa using centroids_getD_pow g bits

theorem pyIn_iff (idx : ℕ) (m : List Bool) :
    pyIn idx m = true ↔ (idx = 0 ∧ false ∈ m) ∨ (idx = 1 ∧ true ∈ m) := by
  unfold pyIn
  rw [List.any_eq_true]
  constructor
  · rintro ⟨b, hb, hbeq⟩
    cases b
    · simp only [cond_false, Nat.beq_eq_true_eq] at hbeq
      exact Or.inl ⟨hbeq.symm, hb⟩
    · simp only [cond_true, Nat.beq_eq_true_eq] at hbeq
      exact Or.inr ⟨hbeq.symm, hb⟩
  · rintro (⟨rfl, hb⟩ | ⟨rfl, hb⟩)
    · exact ⟨false, hb, by simp⟩
    · exact ⟨true, hb, by simp⟩

theorem length_goboAssigned (w : List ℚ) (m : List Bool) (bits : ℕ) :
    (goboAssigned w m bits).length = w.length := by
  simp [goboAssigned]

theorem length_goboRestored (w : List ℚ) (m : List Bool) (bits : ℕ)
    (hm : m.length = w.length) :
    (goboRestored w m bits).length = w.length := by
  simp [goboRestored, length_goboAssigned, hm]

theorem length_gobo_quantize (w : List ℚ) (m : List Bool) (bits : ℕ)
    (hm : m.length = w.length) :
    (gobo_quantize w m bits).length = w.length := by
  simp [gobo_quantize, List.length_mapIdx, length_goboRestored w m bits hm]

theorem getD_mapIdx (l : List ℚ) (f : ℕ → ℚ → ℚ) {i : ℕ} (hi : i < l.length) :
    (l.mapIdx f).getD i 0 = f i (l.getD i 0) := by
  have hi' : i < (l.mapIdx f).length := by
    simpa [List.length_mapIdx] using hi
  rw [List.getD_eq_getElem _ _ hi', List.getD_eq_getElem _ _ hi]
  have := List.get_mapIdx l f i hi
  simpa using this

/-- C9 (amended): part (a) of the claim holds — the right-inclusive
binary search assigns the sentinel bucket to every value `x` that is at
most the minimum of the sorted non-outlier group (centroid index `-1`,
which numpy resolves to the last table entry) and to every value greater
than its maximum (centroid index `2^bits`, also the sentinel entry).
Part (b) is amended: because `idx not in o_idx` tests the integer index
against a numpy *boolean* array (elements `0`/`1`), the patch loop
replaces a below-`-100` value at position `i` with the first bin's
centroid exactly when **not** (`i = 0` and some position is a
non-outlier, or `i = 1` and some position is an outlier); at positions
`0` and `1` satisfying that containment the sentinel/raw value is kept,
so the smallest non-outlier weight is mapped to the first centroid only
when its position is not such an index (in particular whenever its
position is at least 2). -/
theorem sentinel_and_patch_amended (w : List ℚ) (m : List Bool) (bits : ℕ)
    (hm : m.length = w.length) (hg : goboGGroup w m ≠ []) :
    (∀ x : ℚ, (x ≤ (goboGGroup w m).getD 0 0 ∨ (goboGGroup w m).getLastD 0 < x) →
      pyIdx (goboCentroids (goboGGroup w m) bits)
        ((digitizeRight (goboBins (goboGGroup w m) bits) x : ℤ) - 1) = -99999) ∧
    (∀ i < w.length,
      (goboRestored w m bits).getD i 0 < -100 →
      (gobo_quantize w m bits).getD i 0 =
        if (i = 0 ∧ false ∈ m) ∨ (i = 1 ∧ true ∈ m)
        then (goboRestored w m bits).getD i 0
        else (goboCentroids (goboGGroup w m) bits).getD 0 0) := by
  constructor
  · intro x hx
    rcases hx with hx | hx
    · rw [digitize_of_le_min (goboGGroup_sorted w m) hg bits hx]
      simpa using pyIdx_neg_one (goboGGroup w m) bits
    · rw [digitize_of_gt_max (goboGGroup_sorted w m) hg bits hx]
      have h1 : ((2 ^ bits + 1 : ℕ) : ℤ) - 1 = ((2 ^ bits : ℕ) : ℤ) := by push_cast; ring
      rw [h1]
      unfold pyIdx
      rw [if_neg (not_lt.2 (Int.natCast_nonneg _)), Int.toNat_natCast]
      exact centroids_getD_pow (goboGGroup w m) bits
  · intro i hi hlow
    have hir : i < (goboRestored w m bits).length := by
      rwa [length_goboRestored w m bits hm]
    rw [gobo_quantize, getD_mapIdx _ _ hir]
    by_cases hin : pyIn i m = true
    · rw [if_neg (by simp [hin]), if_pos ((pyIn_iff i m).1 hin)]
    · have hfalse : pyIn i m = false := by simpa using hin
      rw [if_pos ⟨hlow, hfalse⟩, if_neg]
      intro hcontra
      exact hin ((pyIn_iff i m).2 hcontra)

theorem sentinel_and_patch_amended_witness :
    pyIdx (goboCentroids (goboGGroup [0, 1, 2, 3] (List.replicate 4 false)) 0)
      ((digitizeRight (goboBins (goboGGroup [0, 1, 2, 3] (List.replicate 4 false)) 0)
         (-7 : ℚ) : ℤ) - 1) = -99999 := by
  have hg : goboGGroup [0, 1, 2, 3] (List.replicate 4 false) = [0, 1, 2, 3] := by
    norm_num [goboGGroup, List.insertionSort, List.orderedInsert]
  exact (sentinel_and_patch_amended [0, 1, 2, 3] (List.replicate 4 false) 0
      (by norm_num) (by rw [hg]; simp)).1 (-7)
    (Or.inl (by rw [hg]; norm_num))

/-- C9 counterexample: for `W = [0,…,7]`, no outliers, `bits = 1`, the
smallest non-outlier weight `0` sits at position `0`; its binary-search
value is the sentinel `-99999 < -100` and its position is not an
outlier position, yet the patch loop does *not* overwrite it with the
first bin's centroid `3/2`: because `0 in o_idx` is true for a boolean
mask containing `False`, position 0 is skipped and the quantized vector
keeps the sentinel. -/
theorem patch_loop_counterexample :
    (goboRestored [0, 1, 2, 3, 4, 5, 6, 7] (List.replicate 8 false) 1).getD 0 0 = -99999 ∧
    (List.replicate 8 false).getD 0 false = false ∧
    (goboCentroids (goboGGroup [0, 1, 2, 3, 4, 5, 6, 7] (List.replicate 8 false)) 1).getD 0 0 = 3/2 ∧
    (gobo_quantize [0, 1, 2, 3, 4, 5, 6, 7] (List.replicate 8 false) 1).getD 0 0 = -99999 ∧
    (-99999 : ℚ) ≠ 3/2 := by
  have hg : goboGGroup [0, 1, 2, 3, 4, 5, 6, 7] (List.replicate 8 false) =
      [0, 1, 2, 3, 4, 5, 6, 7] := by
    norm_num [goboGGroup, List.insertionSort, List.orderedInsert]
  have hc : goboCentroids (goboGGroup [0, 1, 2, 3, 4, 5, 6, 7] (List.replicate 8 false)) 1 =
      [3/2, 11/2, -99999] := by
    rw [hg]
    norm_num [goboCentroids, goboStep, binSlice, listAvg, List.range_succ]
  have hb : goboBins (goboGGroup [0, 1, 2, 3, 4, 5, 6, 7] (List.replicate 8 false)) 1 =
      [0, 4, 7] := by
    rw [hg]
    norm_num [goboBins, goboStep, List.range_succ]
  have ha : goboAssigned [0, 1, 2, 3, 4, 5, 6, 7] (List.replicate 8 false) 1 =
      [-99999, 3/2, 3/2, 3/2, 3/2, 11/2, 11/2, 11/2] := by
    unfold goboAssigned
    rw [hc, hb]
    norm_num [digitizeRight, pyIdx]
  have hr : goboRestored [0, 1, 2, 3, 4, 5, 6, 7] (List.replicate 8 false) 1 =
      [-99999, 3/2, 3/2, 3/2, 3/2, 11/2, 11/2, 11/2] := by
    unfold goboRestored
    rw [ha]
    norm_num [List.zip_cons_cons, List.replicate_succ]
  have hq : gobo_quantize [0, 1, 2, 3, 4, 5, 6, 7] (List.replicate 8 false) 1 =
      [-99999, 3/2, 3/2, 3/2, 3/2, 11/2, 11/2, 11/2] := by
    unfold gobo_quantize
    rw [hr, hc]
    norm_num [List.mapIdx_cons, pyIn]
  rw [hq, hr, hc]
  norm_num

end PatchLemmas

section DriverLemmas

theorem flatten_splitChunks (lens : List ℕ) (v : List ℚ) (h : lens.sum = v.length) :
    (splitChunks lens v).flatten = v := by
  induction lens generalizing v with
  | nil =>
    simp only [List.sum_nil] at h
    simp [splitChunks, List.eq_nil_of_length_eq_zero h.symm]
  | cons n ns ih =>
    simp only [List.sum_cons] at h
    simp only [splitChunks, List.flatten_cons]
    rw [ih (v.drop n) (by simp [List.length_drop]; omega)]
    exact List.take_append_drop n v

theorem length_layerConcat (layer : List (List ℚ)) :
    (layerConcat layer).length = (layer.map List.length).sum := by
  simp [layerConcat]

/-- C2: after `_quantize` writes the quantized weights back into the
layer's parameter tensors, it recomputes the layer-wide count of values
belonging to the outlier set; the call returns normally (`.ok`) only
when that count exactly equals the size of the outlier set reported by
the gate — and then the written-back tensors concatenate exactly to the
quantized vector — while on a mismatch it aborts with the failed
assertion `assert o_count == len(o_group)` instead of returning. -/
theorem quantize_layer_outlier_check (layer : List (List ℚ)) (m : List Bool) (bits : ℕ)
    (hm : m.length = (layerConcat layer).length) :
    (∀ ts, quantizeLayer layer m bits = some ts →
      recomputedOCount ts (oGroupOf (layerConcat layer) m) =
        (oGroupOf (layerConcat layer) m).length ∧
      ts.flatten = gobo_quantize (layerConcat layer) m bits) ∧
    (recomputedOCount
        (splitChunks (layer.map List.length) (gobo_quantize (layerConcat layer) m bits))
        (oGroupOf (layerConcat layer) m) ≠ (oGroupOf (layerConcat layer) m).length →
      quantizeLayer layer m bits = none) := by
  constructor
  · intro ts hts
    unfold quantizeLayer at hts
    by_cases hc : recomputedOCount
        (splitChunks (layer.map List.length) (gobo_quantize (layerConcat layer) m bits))
        (oGroupOf (layerConcat layer) m) = (oGroupOf (layerConcat layer) m).length
    · rw [if_pos hc] at hts
      have hts' : splitChunks (layer.map List.length)
          (gobo_quantize (layerConcat layer) m bits) = ts := by
        injection hts
      subst hts'
      refine ⟨hc, flatten_splitChunks _ _ ?_⟩
      rw [length_gobo_quantize _ _ _ hm, length_layerConcat]
    · rw [if_neg hc] at hts
      exact absurd hts (by simp)
  · intro hne
    unfold quantizeLayer
    rw [if_neg hne]

theorem quantize_layer_outlier_check_witness :
    recomputedOCount [[(-99999 : ℚ), 3/2]] (oGroupOf (layerConcat [[1, 2]]) [false, false]) =
      (oGroupOf (layerConcat [[1, 2]]) [false, false]).length ∧
    ([[(-99999 : ℚ), 3/2]] : List (List ℚ)).flatten =
      gobo_quantize (layerConcat [[1, 2]]) [false, false] 0 := by
  have hcat : layerConcat [[(1 : ℚ), 2]] = [1, 2] := by
    norm_num [layerConcat]
  have hg : goboGGroup [(1 : ℚ), 2] [false, false] = [1, 2] := by
    norm_num [goboGGroup, List.insertionSort, List.orderedInsert]
  have hc : goboCentroids (goboGGroup [(1 : ℚ), 2] [false, false]) 0 = [3/2, -99999] := by
    rw [hg]
    norm_num [goboCentroids, goboStep, binSlice, listAvg, List.range_succ]
  have hb : goboBins (goboGGroup [(1 : ℚ), 2] [false, false]) 0 = [1, 2] := by
    rw [hg]
    norm_num [goboBins, goboStep, List.range_succ]
  have hq : gobo_quantize [(1 : ℚ), 2] [false, false] 0 = [-99999, 3/2] := by
    have ha : goboAssigned [(1 : ℚ), 2] [false, false] 0 = [-99999, 3/2] := by
      unfold goboAssigned
      rw [hc, hb]
      norm_num [digitizeRight, pyIdx]
    have hr : goboRestored [(1 : ℚ), 2] [false, false] 0 = [-99999, 3/2] := by
      unfold goboRestored
      rw [ha]
      norm_num [List.zip_cons_cons]
    unfold gobo_quantize
    rw [hr, hc]
    norm_num [List.mapIdx_cons, pyIn]
  have hok : quantizeLayer [[(1 : ℚ), 2]] [false, false] 0 = some [[-99999, 3/2]] := by
    unfold quantizeLayer
    rw [hcat, hq]
    norm_num [splitChunks, recomputedOCount, oGroupOf, List.zip_cons_cons]
  exact (quantize_layer_outlier_check [[1, 2]] [false, false] 0
    (by norm_num [layerConcat])).1 [[-99999, 3/2]] hok

end DriverLemmas

section GateLemmas

/-- The concrete failing input for the outlier-preservation claim:
eight weights `-99` and one extreme weight `-101` at index 8. -/
def wC1 : List ℚ := [-99, -99, -99, -99, -99, -99, -99, -99, -101]

/-- The outlier mask `detect_outliers` produces on `wC1`: only the
`-101` at index 8 scores below the `-4.0` log-likelihood threshold. -/
def mC1 : List Bool := [false, false, false, false, false, false, false, false, true]

theorem gmMean_wC1 : gmMean wC1 = -893/9 := by
  norm_num [gmMean, wC1]

theorem gmVar_wC1 : gmVar wC1 = 32000081/81000000 := by
  rw [gmVar, gmMean_wC1]
  norm_num [wC1]

theorem not_outlier_neg99 : ¬ isOutlierVal wC1 (-99) := by
  rw [isOutlierVal, gmVar_wC1, gmMean_wC1]
  push_cast
  intro hle
  have hπu := Real.pi_lt_d2
  have hπl := Real.pi_gt_three
  have hpos : (0 : ℝ) < 2 * Real.pi * (32000081 / 81000000) := by positivity
  have hlog := Real.log_le_sub_one_of_pos hpos
  have hterm : ((-99 : ℝ) - -893 / 9) ^ 2 / (2 * (32000081 / 81000000)) =
      2000000 / 32000081 := by
    norm_num
  rw [hterm] at hle
  nlinarith [hle, hlog, hπu]

theorem outlier_neg101 : isOutlierVal wC1 (-101) := by
  rw [isOutlierVal, gmVar_wC1, gmMean_wC1]
  push_cast
  have hπl := Real.pi_gt_three
  have hx : (2.37 : ℝ) ≤ 2 * Real.pi * (32000081 / 81000000) := by nlinarith
  have hxpos : (0 : ℝ) < 2 * Real.pi * (32000081 / 81000000) := by positivity
  have hinv : Real.log (2 * Real.pi * (32000081 / 81000000))⁻¹ ≤
      (2 * Real.pi * (32000081 / 81000000))⁻¹ - 1 :=
    Real.log_le_sub_one_of_pos (by positivity)
  rw [Real.log_inv] at hinv
  have hinvle : (2 * Real.pi * (32000081 / 81000000))⁻¹ ≤ (2.37 : ℝ)⁻¹ := by
    exact inv_le_inv_of_le (by norm_num) hx
  have hlogge : 1 - (2.37 : ℝ)⁻¹ ≤ Real.log (2 * Real.pi * (32000081 / 81000000)) := by
    linarith
  have hterm : ((-101 : ℝ) - -893 / 9) ^ 2 / (2 * (32000081 / 81000000)) =
      128000000 / 32000081 := by
    norm_num
  rw [hterm]
  nlinarith [hlogge]

theorem detect_outliers_wC1 : isOutlierMask wC1 mC1 := by
  constructor
  · norm_num [wC1, mC1]
  · intro i hi
    have h9 : i < 9 := by simpa [wC1] using hi
    have hno : ¬ isOutlierVal wC1 (-99) := not_outlier_neg99
    have hyes : isOutlierVal wC1 (-101) := outlier_neg101
    interval_cases i <;> simp_all [wC1, mC1]

theorem goboGGroup_wC1 :
    goboGGroup wC1 mC1 = [-99, -99, -99, -99, -99, -99, -99, -99] := by
  norm_num [goboGGroup, wC1, mC1, List.insertionSort, List.orderedInsert]

theorem goboCentroids_wC1 :
    goboCentroids (goboGGroup wC1 mC1) 1 = [-99, -99, -99999] := by
  rw [goboGGroup_wC1]
  norm_num [goboCentroids, goboStep, binSlice, listAvg, List.range_succ]

theorem goboBins_wC1 :
    goboBins (goboGGroup wC1 mC1) 1 = [-99, -99, -99] := by
  rw [goboGGroup_wC1]
  norm_num [goboBins, goboStep, List.range_succ]

theorem gobo_quantize_wC1 :
    gobo_quantize wC1 mC1 1 =
      [-99999, -99999, -99, -99, -99, -99, -99, -99, -99] := by
  have ha : goboAssigned wC1 mC1 1 =
      [-99999, -99999, -99999, -99999, -99999, -99999, -99999, -99999, -99999] := by
    unfold goboAssigned
    rw [goboCentroids_wC1, goboBins_wC1]
    norm_num [wC1, digitizeRight, pyIdx]
  have hr : goboRestored wC1 mC1 1 =
      [-99999, -99999, -99999, -99999, -99999, -99999, -99999, -99999, -101] := by
    unfold goboRestored
    rw [ha]
    norm_num [wC1, mC1, List.zip_cons_cons]
  unfold gobo_quantize
  rw [hr, goboCentroids_wC1]
  norm_num [mC1, List.mapIdx_cons, pyIn]

/-- C1 fails on the code (a code bug): on the weight vector `wC1`, the
gate-produced outlier mask `mC1` flags exactly the weight `-101` at
index 8, but the quantized vector returned by `gobo_quantize` holds
`-99` there, not the original `-101`.  The restoration step does write
`-101` back, but the final patch loop tests `idx not in o_idx` against
the numpy *boolean* mask — for which every `idx ≥ 2` counts as "not an
outlier index" — and therefore overwrites the restored below-`-100`
outlier with the first centroid, contradicting the code's own comment
("recover corresponding outlier weights") and its own driver assertion:
`_quantize` on this layer aborts with `assert o_count == len(o_group)`. -/
theorem outlier_preservation_code_bug :
    isOutlierMask wC1 mC1 ∧
    mC1.getD 8 false = true ∧
    wC1.getD 8 0 = -101 ∧
    (gobo_quantize wC1 mC1 1).getD 8 0 = -99 ∧
    ((-99 : ℚ) ≠ -101) ∧
    quantizeLayer [wC1] mC1 1 = none := by
  refine ⟨detect_outliers_wC1, by norm_num [mC1], by norm_num [wC1], ?_, by norm_num, ?_⟩
  · rw [gobo_quantize_wC1]
    norm_num
  · have hcat : layerConcat [wC1] = wC1 := by
      simp [layerConcat]
    unfold quantizeLayer
    rw [hcat, gobo_quantize_wC1]
    have hog : oGroupOf wC1 mC1 = [-101] := by
      norm_num [oGroupOf, wC1, mC1, List.zip_cons_cons]
    rw [hog]
    norm_num [wC1, splitChunks, recomputedOCount]

end GateLemmas



noncomputable section Attention

/-- The parameters of one `BertAttention` block (at full width): the
query/key/value `DynaLinear` weights with their rows grouped by head
(row `(h, j)` is row `h*attention_head_size + j` of the stored matrix),
the output-projection `DynaLinear` weight with its columns grouped the
same way, the biases, and the `BertSelfOutput` LayerNorm parameters. -/
structure AttnParams (n a dd : ℕ) where
  wq : Fin n × Fin a → Fin dd → ℝ
  bq : Fin n × Fin a → ℝ
  wk : Fin n × Fin a → Fin dd → ℝ
  bk : Fin n × Fin a → ℝ
  wv : Fin n × Fin a → Fin dd → ℝ
  bv : Fin n × Fin a → ℝ
  wo : Fin dd → Fin n × Fin a → ℝ
  bo : Fin dd → ℝ
  lnWeight : Fin dd → ℝ
  lnBias : Fin dd → ℝ
  lnEps : ℝ

variable {n a dd s : ℕ}

/-- `nn.functional.linear` for one output coordinate: row `hj` of the
weight matrix applied to the input at sequence position `pos`, plus the
bias entry.  Used for the query/key/value projections, whose output
rows are grouped by head. -/
def linearRow (W : Fin n × Fin a → Fin dd → ℝ) (b : Fin n × Fin a → ℝ)
    (x : Fin s → Fin dd → ℝ) (pos : Fin s) (hj : Fin n × Fin a) : ℝ :=
  (∑ k, W hj k * x pos k) + b hj

/-- Source `BertSelfAttention.forward` attention scores at width 1.0:
per-head dot product of query and key rows, scaled by
`1/sqrt(attention_head_size)`, plus the additive attention mask
(broadcast over heads). -/
def attnScores (p : AttnParams n a dd) (x : Fin s → Fin dd → ℝ)
    (mask : Fin s → Fin s → ℝ) (h : Fin n) (q r : Fin s) : ℝ :=
  (∑ j, linearRow p.wq p.bq x q (h, j) * linearRow p.wk p.bk x r (h, j)) /
    Real.sqrt a + mask q r

/-- Softmax of the attention scores over the key position dimension
(`nn.Softmax(dim=-1)`); dropout is the identity at inference. -/
def attnProbs (p : AttnParams n a dd) (x : Fin s → Fin dd → ℝ)
    (mask : Fin s → Fin s → ℝ) (h : Fin n) (q r : Fin s) : ℝ :=
  Real.exp (attnScores p x mask h q r) / ∑ t, Real.exp (attnScores p x mask h q t)

/-- The per-head context (`torch.matmul(attention_probs, value_layer)`),
re-flattened to head-grouped coordinates. -/
def attnContext (p : AttnParams n a dd) (x : Fin s → Fin dd → ℝ)
    (mask : Fin s → Fin s → ℝ) (q : Fin s) (hj : Fin n × Fin a) : ℝ :=
  ∑ r, attnProbs p x mask hj.1 q r * linearRow p.wv p.bv x r hj

/-- The `BertSelfOutput` dense projection at full width: output
projection applied to the flattened context (columns grouped by head),
plus bias. -/
def attnSelfOutput (p : AttnParams n a dd) (x : Fin s → Fin dd → ℝ)
    (mask : Fin s → Fin s → ℝ) (q : Fin s) (i : Fin dd) : ℝ :=
  (∑ hj : Fin n × Fin a, p.wo i hj * attnContext p x mask q hj) + p.bo i

/-- `BertLayerNorm` over the hidden dimension with the block's scale
and shift parameters. -/
def layerNormRow (p : AttnParams n a dd) (v : Fin dd → ℝ) (i : Fin dd) : ℝ :=
  p.lnWeight i * ((v i - (∑ j, v j) / dd) /
    Real.sqrt ((∑ j, (v j - (∑ k, v k) / dd) ^ 2) / dd + p.lnEps)) + p.lnBias i

/-- Source `BertAttention.forward` at `width_mult = 1.0` (all heads
active, all slices full): self-attention, output projection, residual
connection and LayerNorm; dropout layers are the identity at
inference. -/
def bertAttentionForward (p : AttnParams n a dd) (x : Fin s → Fin dd → ℝ)
    (mask : Fin s → Fin s → ℝ) (q : Fin s) (i : Fin dd) : ℝ :=
  layerNormRow p (fun j => attnSelfOutput p x mask q j + x q j) i

/-- Source `BertAttention.reorder_heads(idx)`:
`index = torch.arange(n*a).reshape(n, a)[idx].view(-1)` permutes the
head-grouped rows of the query/key/value weights and biases
(`index_select(0, index)`) and the matching columns of the output
projection (`index_select(1, index)`, bias untouched), in place. -/
def reorderHeads (idx : Equiv.Perm (Fin n)) (p : AttnParams n a dd) :
    AttnParams n a dd where
  wq := fun hj k => p.wq (idx hj.1, hj.2) k
  bq := fun hj => p.bq (idx hj.1, hj.2)
  wk := fun hj k => p.wk (idx hj.1, hj.2) k
  bk := fun hj => p.bk (idx hj.1, hj.2)
  wv := fun hj k => p.wv (idx hj.1, hj.2) k
  bv := fun hj => p.bv (idx hj.1, hj.2)
  wo := fun i hj => p.wo i (idx hj.1, hj.2)
  bo := p.bo
  lnWeight := p.lnWeight
  lnBias := p.lnBias
  lnEps := p.lnEps

theorem attnContext_reorder (idx : Equiv.Perm (Fin n)) (p : AttnParams n a dd)
    (x : Fin s → Fin dd → ℝ) (mask : Fin s → Fin s → ℝ) (q : Fin s)
    (hj : Fin n × Fin a) :
    attnContext (reorderHeads idx p) x mask q hj =
      attnContext p x mask q (idx hj.1, hj.2) := rfl

theorem attnSelfOutput_reorder (idx : Equiv.Perm (Fin n)) (p : AttnParams n a dd)
    (x : Fin s → Fin dd → ℝ) (mask : Fin s → Fin s → ℝ) (q : Fin s) (i : Fin dd) :
    attnSelfOutput (reorderHeads idx p) x mask q i = attnSelfOutput p x mask q i := by
  unfold attnSelfOutput
  congr 1
  rw [← Equiv.sum_comp (Equiv.prodCongr idx (Equiv.refl (Fin a)))
      (fun z => p.wo i z * attnContext p x mask q z)]
  apply Finset.sum_congr rfl
  intro hj _
  rw [attnContext_reorder]
  simp only [Equiv.prodCongr_apply, Equiv.coe_refl, Prod.map, id_eq]
  rfl

/-- C7: permuting the attention heads with `reorder_heads` (any
permutation) and then running the attention block at
`width_mult = 1.0` produces exactly the same output as running the
unreordered block on the same input and attention mask. -/
theorem reorder_heads_full_width_invariant (p : AttnParams n a dd)
    (idx : Equiv.Perm (Fin n)) (x : Fin s → Fin dd → ℝ)
    (mask : Fin s → Fin s → ℝ) (q : Fin s) (i : Fin dd) :
    bertAttentionForward (reorderHeads idx p) x mask q i =
      bertAttentionForward p x mask q i := by
  unfold bertAttentionForward
  have hfun : (fun j => attnSelfOutput (reorderHeads idx p) x mask q j + x q j) =
      (fun j => attnSelfOutput p x mask q j + x q j) := by
    funext j
    rw [attnSelfOutput_reorder]
  rw [hfun]
  rfl

end Attention
